import Mathlib

/-!
Verification development for the LX_Agent core: a shallow embedding of
`mcp_server/router.py` (provider router), `core/agent.py`
(`Agent.execute_interactive`, the adaptive step loop) and
`llm/base.py` (`BaseLLM._truncate_history`, history truncation),
together with theorems settling the specification claims about them.

Modelling conventions:
* Python dicts with string keys are insertion-ordered association lists
  (`RDict`); values are modelled by their serialized string form, which is
  all the embedded code ever inspects (key lookups, the `status` field and
  the sorted-argument call signature).
* Exceptions are `Except` values; `await` is erased (the code is strictly
  sequential per session).
* External interactions of one `execute_interactive` run (LLM planning
  outputs, router results, user replies) are an `Env` of streams consumed
  in program order; `random.choice` in the load-balance strategy is a
  `pick` index parameter.
* The token estimator `estimate_tokens ∘ json.dumps` of `llm/base.py` is a
  function parameter `est`, as it delegates to the external `tiktoken`
  library; everything else is translated from the source.
-/

namespace LXAgent

/-- Python dict with string keys: insertion-ordered association list. -/
abbrev RDict := List (String × String)

/-- `d.get(k)` / `d[k]`: first binding of `k`, if any. -/
def lookupKey (d : RDict) (k : String) : Option String :=
  match d with
  | [] => none
  | (k', v) :: rest => if k' = k then some v else lookupKey rest k

/-- `d[k] = v` in Python: replace in place if the key exists, else append. -/
def setKey (d : RDict) (k v : String) : RDict :=
  match d with
  | [] => [(k, v)]
  | (k', v') :: rest => if k' = k then (k, v) :: rest else (k', v') :: setKey rest k v

/-- A content block of a structured `CallToolResult` (remote MCP response):
`type` and `text` are optional attributes (`hasattr` in the source). -/
structure ContentBlock where
  btype : Option String
  text : Option String
deriving DecidableEq, Repr

/-- A `CallToolResult`-style object from a remote provider session. -/
structure CallToolResult where
  isError : Bool
  content : List ContentBlock
  structuredContent : Option String
deriving DecidableEq, Repr

/-- Text contributed by one block in the extraction loops of
`router.execute_tool_call` / `agent.execute_interactive`: blocks with
`type == "text"` contribute their `text`, other blocks contribute `text`
when the attribute is present, else nothing.  (A `type == "text"` block is
assumed to carry `text`; a missing attribute would raise in Python.) -/
def blockText (b : ContentBlock) : String := b.text.getD ""

/-- Concatenation of the textual content of all blocks. -/
def contentText (blocks : List ContentBlock) : String :=
  blocks.foldl (fun acc b => acc ++ blockText b) ""

/-- Successful `CallToolResult` text: block text plus the structured-content
annotation when present and truthy (`some` models present-and-truthy). -/
def ctrSuccessText (c : CallToolResult) : String :=
  match c.structuredContent with
  | some sc => contentText c.content ++ "\n结构化内容: " ++ sc
  | none => contentText c.content

/-- The two result shapes a provider `call_tool` can produce. -/
inductive ToolResult where
  | dict (d : RDict)
  | ctr (c : CallToolResult)
deriving DecidableEq, Repr

/-- One MCP provider as the router consumes it (`BaseMCP`): availability
predicate, capability list, tool listing and the two call entry points,
each of which may raise. -/
structure Provider where
  available : Bool
  capabilities : List String
  listTools : Except Unit (List RDict)
  callTool : String → RDict → Except Unit ToolResult
  executeCommand : String → Except String RDict

/-- `[tool["name"] for tool in tools]`: `none` models the `KeyError` raised
when a listed tool lacks a `name` key (caught by the enclosing `except`). -/
def toolNames (tools : List RDict) : Option (List String) :=
  tools.mapM (fun t => lookupKey t "name")

/-- Conversion of a structured `CallToolResult` into the standard dict
format (`router.execute_tool_call`, lines 302-330). -/
def normalizeCtr (c : CallToolResult) (mcpName : String) : RDict :=
  if c.isError = false then
    [("status", "success"), ("result", ctrSuccessText c), ("mcp_name", mcpName)]
  else
    [("status", "error"), ("result", contentText c.content), ("mcp_name", mcpName)]

/-- `MCPRouter.execute_tool_call`: walk the registered providers in order;
the first whose listing succeeds and contains `toolName` is called; any
exception (listing, name extraction or call) skips to the next provider;
when no provider serves the tool, return the not-found error envelope. -/
def execute_tool_call (mcps : List (String × Provider)) (toolName : String)
    (args : RDict) : RDict :=
  match mcps with
  | [] => [("status", "error"), ("error", "Tool " ++ toolName ++ " not found")]
  | (name, mcp) :: rest =>
    match mcp.listTools with
    | .error _ => execute_tool_call rest toolName args
    | .ok tools =>
      match toolNames tools with
      | none => execute_tool_call rest toolName args
      | some names =>
        if toolName ∈ names then
          match mcp.callTool toolName args with
          | .error _ => execute_tool_call rest toolName args
          | .ok (.dict d) => setKey d "mcp_name" name
          | .ok (.ctr c) => normalizeCtr c name
        else execute_tool_call rest toolName args

/-- `MCPRouter.get_all_tools`: aggregate every provider's tools in
registration order, stamping each descriptor with the provider id;
providers whose listing raises are skipped with a warning. -/
def get_all_tools (mcps : List (String × Provider)) : List RDict :=
  match mcps with
  | [] => []
  | (name, mcp) :: rest =>
    match mcp.listTools with
    | .ok tools => tools.map (fun t => setKey t "mcp_name" name) ++ get_all_tools rest
    | .error _ => get_all_tools rest

/-- `MCPRouter.get_available_mcps`: providers whose availability predicate
holds, in registration order. -/
def get_available_mcps (mcps : List (String × Provider)) : List (String × Provider) :=
  mcps.filter (fun nm => nm.2.available)

/-- Insert into a priority-descending list, after all entries of greater or
equal priority (matches the stability of Python's `sorted` with
`reverse=True`). -/
def insertByPrioDesc (prio : String → Int) (x : String × Provider) :
    List (String × Provider) → List (String × Provider)
  | [] => [x]
  | y :: ys =>
    if prio x.1 > prio y.1 then x :: y :: ys else y :: insertByPrioDesc prio x ys

/-- `sorted(available, key=priority, reverse=True)`: stable descending sort
by configured priority (`prio` models the per-service `priority` config
lookup, default 0). -/
def sortByPrioDesc (prio : String → Int) (l : List (String × Provider)) :
    List (String × Provider) :=
  l.foldl (fun acc x => insertByPrioDesc prio x acc) []

/-- The best-match fallback loop of `select_mcp_by_capability`: first
provider with a strictly larger capability intersection wins. -/
def bestMatchLoop (required : List String) :
    List (String × Provider) → Option (String × Provider) → Int →
      Option (String × Provider)
  | [], best, _ => best
  | nm :: rest, best, bestCount =>
    if (required.countP (fun c => c ∈ nm.2.capabilities) : Int) > bestCount then
      bestMatchLoop required rest (some nm)
        (required.countP (fun c => c ∈ nm.2.capabilities) : Int)
    else bestMatchLoop required rest best bestCount

/-- `MCPRouter.select_mcp_by_capability`: with no required capabilities,
the first available provider; otherwise the highest-priority available
provider covering all required capabilities, else the best partial match. -/
def select_mcp_by_capability (prio : String → Int)
    (mcps : List (String × Provider)) (required : List String) :
    Option (String × Provider) :=
  match get_available_mcps mcps with
  | [] => none
  | a :: rest =>
    if required = [] then some a
    else
      let sorted := sortByPrioDesc prio (a :: rest)
      match sorted.find? (fun nm => required.all (fun c => c ∈ nm.2.capabilities)) with
      | some x => some x
      | none => bestMatchLoop required sorted none (-1)

/-- `MCPRouter.select_mcp_by_priority`. -/
def select_mcp_by_priority (prio : String → Int)
    (mcps : List (String × Provider)) : Option (String × Provider) :=
  match sortByPrioDesc prio (get_available_mcps mcps) with
  | [] => none
  | a :: _ => some a

/-- `MCPRouter.select_mcp_by_load_balance`: `random.choice` over the
available providers, modelled by the draw index `pick`. -/
def select_mcp_by_load_balance (pick : Nat)
    (mcps : List (String × Provider)) : Option (String × Provider) :=
  match get_available_mcps mcps with
  | [] => none
  | a :: rest => some ((a :: rest).getD (pick % (rest.length + 1)) a)

/-- `MCPRouter.select_mcp` (router already initialized): dispatch on the
configured routing strategy, defaulting to capability matching. -/
def select_mcp (strategy : String) (prio : String → Int) (pick : Nat)
    (mcps : List (String × Provider)) (required : List String) :
    Option (String × Provider) :=
  if strategy = "capability_match" then select_mcp_by_capability prio mcps required
  else if strategy = "priority_first" then select_mcp_by_priority prio mcps
  else if strategy = "load_balance" then select_mcp_by_load_balance pick mcps
  else select_mcp_by_capability prio mcps required

/-- The fallback loop of `MCPRouter.execute_command`: try the other
available providers in order, stamping the first success with the fallback
marker; when all fail return the all-failed error envelope. -/
def tryFallback (command : String) (origErr : String) (origName : String) :
    List (String × Provider) → RDict
  | [] =>
    [("status", "error"), ("error", "All MCP services failed to execute command"),
     ("original_error", origErr), ("mcp_name", origName)]
  | (n, m) :: rest =>
    match m.executeCommand command with
    | .ok r => setKey (setKey r "mcp_name" n) "fallback" "True"
    | .error _ => tryFallback command origErr origName rest

/-- `MCPRouter.execute_command`: optional interactive shell confirmation,
provider selection by strategy, dispatch, and failover to the other
available providers on exception.  `confirmAnswer` models an affirmative
reply to the shell-confirmation prompt. -/
def execute_command (mcps : List (String × Provider)) (strategy : String)
    (prio : String → Int) (pick : Nat) (shellConfirm confirmAnswer : Bool)
    (command : String) (required : List String) : RDict :=
  if (!required.isEmpty) && required.contains "shell" && shellConfirm
      && !confirmAnswer then
    [("status", "cancelled"), ("error", "用户取消了shell命令执行")]
  else
    match select_mcp strategy prio pick mcps required with
    | none => [("status", "error"), ("error", "No available MCP service")]
    | some (name, mcp) =>
      match mcp.executeCommand command with
      | .ok result => setKey result "mcp_name" name
      | .error e =>
        match (get_available_mcps mcps).filter (fun nm => nm.1 ≠ name) with
        | [] =>
          [("status", "error"), ("error", "Failed to execute command: " ++ e),
           ("mcp_name", name)]
        | o :: os => tryFallback command e name (o :: os)

/-! ### The adaptive step loop (`Agent.execute_interactive`, core/agent.py) -/

/-- A tool call proposed by the LLM: name and arguments (argument values by
their serialized form, which is all the loop inspects). -/
structure ToolCall where
  name : String
  arguments : RDict
deriving DecidableEq, Repr

/-- Strict lexicographic code-point order on character lists (the order
Python uses to compare strings). -/
def charsLt : List Char → List Char → Bool
  | _, [] => false
  | [], _ :: _ => true
  | a :: as, b :: bs =>
    if a.toNat < b.toNat then true
    else if b.toNat < a.toNat then false
    else charsLt as bs

/-- Strict string order by code points. -/
def strLtB (a b : String) : Bool := charsLt a.data b.data

/-- Lexicographic order on serialized `(key, value)` pairs, as compared by
Python's `sorted(arguments.items())`. -/
def pairLe (x y : String × String) : Bool :=
  strLtB x.1 y.1 || (x.1 = y.1 && !strLtB y.2 x.2)

/-- Insert into a sorted pair list. -/
def insertPair (x : String × String) : RDict → RDict
  | [] => [x]
  | y :: ys => if pairLe x y then x :: y :: ys else y :: insertPair x ys

/-- `sorted(arguments.items())`. -/
def sortArgs (args : RDict) : RDict :=
  args.foldr insertPair []

/-- The canonical signature
`f"{name}({sorted(arguments.items())})"` of a proposed tool call,
modelled as the pair of its components (signatures are compared only for
equality). -/
def callSignature (c : ToolCall) : String × RDict :=
  (c.name, sortArgs c.arguments)

/-- One history entry: `{"command": ..., "result": ...}`, with the
intermediate summary later written into the same entry. -/
structure HistEntry where
  command : ToolCall
  result : RDict
  summary : Option String
deriving DecidableEq, Repr

/-- Security and LLM configuration consumed by `execute_interactive`. -/
structure AgentConfig where
  hasLLM : Bool
  dangerousTools : List String
  shellConfirm : Bool
  autoContinueDangerous : Bool
  autoContinueInteractive : Bool

/-- The user command that ends one round of the decision-gate prompt. -/
inductive UserCmd where
  | stop
  | edit (newCmd : String)
  | replan
  | cont
deriving DecidableEq, Repr

/-- One visit to the decision gate: the user may first enter
`clear`/`reset` (clearing the history and re-prompting), then a command
that leaves the prompt loop. -/
structure GateInput where
  clearFirst : Bool
  cmd : UserCmd
deriving DecidableEq, Repr

/-- The external interactions of one `execute_interactive` run, each a
stream consumed in program order. -/
structure Env where
  plan : Nat → List ToolCall
  exec : Nat → ToolResult
  confirmDanger : Nat → Bool
  gate : Nat → GateInput
  interSummary : Nat → String
  finalSummaryText : String
  clearAtEnd : Bool

/-- Loop state of `execute_interactive`, plus consumption counters for the
interaction streams. -/
structure LoopSt where
  command : String
  history : List HistEntry
  step : Nat
  lastSig : Option (String × RDict)
  repCount : Nat
  planIdx : Nat
  execIdx : Nat
  confirmIdx : Nat
  gateIdx : Nat
  sumIdx : Nat
deriving DecidableEq, Repr

/-- The value `execute_interactive` returns. -/
structure RunResult where
  status : String
  results : List HistEntry
  finalSummary : Option String
deriving DecidableEq, Repr

/-- `ask_clear_history`: on an affirmative answer the history list is
cleared in place (the returned `results` alias the same list). -/
def askClear (ans : Bool) (h : List HistEntry) : List HistEntry :=
  if ans then [] else h

/-- The history entry appended by the repetition hard stop. -/
def hardStopEntry (name : String) (count : Nat) : HistEntry :=
  { command := { name := "system_error",
                 arguments := [("message", "检测到无限循环，强制终止。")] },
    result := [("status", "error"),
               ("message", "命令 '" ++ name ++ "' 已被连续重复执行 "
                  ++ toString count ++ " 次。")],
    summary := none }

/-- The SystemNotice entry appended by the repetition soft block. -/
def softBlockEntry (name : String) : HistEntry :=
  { command := { name := "system_notice",
                 arguments := [("message", "重复的指令 '" ++ name ++ "' 已被自动拒绝。")] },
    result := [("status", "info"),
               ("message", "下一步应该采取不同的操作来推进任务，而不是重复之前的操作。")],
    summary := none }

/-- Conversion of the router result into a plain dict
(`execute_interactive`, lines 302-333); the subsequent JSON
round-trip (`loads(dumps(result))`) is the identity on the already
serialized values modelled here. -/
def convertResult (res : ToolResult) : RDict :=
  match res with
  | .dict d => d
  | .ctr c =>
    if c.isError = false then [("status", "success"), ("result", ctrSuccessText c)]
    else [("status", "error"), ("result", contentText c.content)]

/-- Repetition-tracking update: the signature is remembered only when the
call succeeded, otherwise the chain is broken. -/
def newLastSig (res : ToolResult) (curSig : String × RDict) :
    Option (String × RDict) :=
  match res with
  | .dict d => if lookupKey d "status" = some "success" then some curSig else none
  | .ctr c => if c.isError = false then some curSig else none

/-- Steps 3-6 of one loop iteration: dispatch the call, convert and record
the result, take the intermediate summary, then the user decision gate. -/
def execStep (cfg : AgentConfig) (env : Env) (autoContinue : Bool) (st : LoopSt)
    (call : ToolCall) (curSig : String × RDict)
    (repCount planIdx' confirmIdx' : Nat) : LoopSt ⊕ RunResult :=
  let res := env.exec st.execIdx
  let entry : HistEntry :=
    { command := call, result := convertResult res,
      summary := if cfg.hasLLM then some (env.interSummary st.sumIdx) else none }
  let sumIdx' := if cfg.hasLLM then st.sumIdx + 1 else st.sumIdx
  let history1 := st.history ++ [entry]
  if autoContinue || cfg.autoContinueInteractive then
    .inl { command := st.command, history := history1, step := st.step + 1,
           lastSig := newLastSig res curSig, repCount := repCount,
           planIdx := planIdx', execIdx := st.execIdx + 1,
           confirmIdx := confirmIdx', gateIdx := st.gateIdx, sumIdx := sumIdx' }
  else
    let g := env.gate st.gateIdx
    let history2 := if g.clearFirst then ([] : List HistEntry) else history1
    match g.cmd with
    | .stop =>
      .inr { status := "stopped", results := askClear env.clearAtEnd history2,
             finalSummary := if cfg.hasLLM then some env.finalSummaryText else none }
    | .edit s =>
      .inl { command := s, history := history2, step := st.step + 1,
             lastSig := newLastSig res curSig, repCount := repCount,
             planIdx := planIdx', execIdx := st.execIdx + 1,
             confirmIdx := confirmIdx', gateIdx := st.gateIdx + 1, sumIdx := sumIdx' }
    | .replan =>
      .inl { command := st.command, history := history2, step := st.step + 1,
             lastSig := newLastSig res curSig, repCount := repCount,
             planIdx := planIdx', execIdx := st.execIdx + 1,
             confirmIdx := confirmIdx', gateIdx := st.gateIdx + 1, sumIdx := sumIdx' }
    | .cont =>
      .inl { command := st.command, history := history2, step := st.step + 1,
             lastSig := newLastSig res curSig, repCount := repCount,
             planIdx := planIdx', execIdx := st.execIdx + 1,
             confirmIdx := confirmIdx', gateIdx := st.gateIdx + 1, sumIdx := sumIdx' }

/-- One iteration of the `while step < max_steps` body of
`execute_interactive`: plan, repetition guard (hard stop, then soft
block), dangerous-tool gate, then `execStep`. -/
def stepIter (cfg : AgentConfig) (env : Env) (autoContinue : Bool)
    (st : LoopSt) : LoopSt ⊕ RunResult :=
  match (if cfg.hasLLM then env.plan st.planIdx else []) with
  | [] =>
    if cfg.hasLLM then
      .inr { status := "success", results := askClear env.clearAtEnd st.history,
             finalSummary := some env.finalSummaryText }
    else
      .inr { status := "success", results := st.history, finalSummary := none }
  | call :: _ =>
    let planIdx' := if cfg.hasLLM then st.planIdx + 1 else st.planIdx
    let curSig := callSignature call
    let repCount := if st.lastSig = some curSig then st.repCount + 1 else 1
    if repCount ≥ 4 then
      .inr { status := "error",
             results := st.history ++ [hardStopEntry call.name repCount],
             finalSummary := some "因重复操作强制终止" }
    else if repCount ≥ 2 then
      .inl { command := st.command,
             history := st.history ++ [softBlockEntry call.name],
             step := st.step + 1, lastSig := none, repCount := repCount,
             planIdx := planIdx', execIdx := st.execIdx,
             confirmIdx := st.confirmIdx, gateIdx := st.gateIdx, sumIdx := st.sumIdx }
    else if cfg.dangerousTools.contains call.name && cfg.shellConfirm
        && !cfg.autoContinueDangerous then
      if env.confirmDanger st.confirmIdx then
        execStep cfg env autoContinue st call curSig repCount planIdx' (st.confirmIdx + 1)
      else
        .inl { command := st.command,
               history := st.history
                 ++ [{ command := call, result := [("status", "cancelled")],
                       summary := none }],
               step := st.step + 1, lastSig := st.lastSig, repCount := repCount,
               planIdx := planIdx', execIdx := st.execIdx,
               confirmIdx := st.confirmIdx + 1, gateIdx := st.gateIdx,
               sumIdx := st.sumIdx }
    else
      execStep cfg env autoContinue st call curSig repCount planIdx' st.confirmIdx

/-- The loop driver: run iterations while `step < max_steps` (the fuel is
`max_steps - step`, decreasing in lockstep with the step counter); on
exhaustion, the closing final-summary path of `execute_interactive`. -/
def runLoopAux (cfg : AgentConfig) (env : Env) (autoContinue : Bool) :
    Nat → LoopSt → RunResult
  | 0, st =>
    { status := "success", results := askClear env.clearAtEnd st.history,
      finalSummary := if cfg.hasLLM then some env.finalSummaryText else none }
  | fuel + 1, st =>
    match stepIter cfg env autoContinue st with
    | .inr r => r
    | .inl st' => runLoopAux cfg env autoContinue fuel st'

/-- `Agent.execute_interactive(command, history, max_steps, auto_continue)`. -/
def execute_interactive (cfg : AgentConfig) (env : Env) (command : String)
    (history : List HistEntry) (maxSteps : Nat) (autoContinue : Bool) : RunResult :=
  runLoopAux cfg env autoContinue maxSteps
    { command := command, history := history, step := 0, lastSig := none,
      repCount := 0, planIdx := 0, execIdx := 0, confirmIdx := 0,
      gateIdx := 0, sumIdx := 0 }

/-- Iterate the loop body `k` times (stopping early on a return), to speak
about the state after step `k` completes. -/
def iterateLoop (cfg : AgentConfig) (env : Env) (autoContinue : Bool) :
    Nat → LoopSt → LoopSt ⊕ RunResult
  | 0, st => .inl st
  | n + 1, st =>
    match stepIter cfg env autoContinue st with
    | .inl st' => iterateLoop cfg env autoContinue n st'
    | .inr r => .inr r

/-! ### History truncation (`BaseLLM._truncate_history`, llm/base.py) -/

/-- A JSON-representable value, as stored in history entries. -/
inductive JVal where
  | str (s : String)
  | num (n : Int)
  | arr (l : List JVal)
  | obj (l : List (String × JVal))
deriving Repr

/-- The cut-site marker inserted by `_truncate_long_strings`. -/
def truncNotice : String := "[...内容过长,已被裁剪...]"

mutual

/-- `_truncate_long_strings`: recursively cap every string longer than
`maxLen`, appending the visible notice at each cut site. -/
def truncLongStrings (maxLen : Nat) : JVal → JVal
  | .str s => if s.length > maxLen then .str (s.take maxLen ++ truncNotice) else .str s
  | .num n => .num n
  | .arr l => .arr (truncLongStringsList maxLen l)
  | .obj l => .obj (truncLongStringsObj maxLen l)

/-- `_truncate_long_strings` over a list value. -/
def truncLongStringsList (maxLen : Nat) : List JVal → List JVal
  | [] => []
  | v :: vs => truncLongStrings maxLen v :: truncLongStringsList maxLen vs

/-- `_truncate_long_strings` over a dict value. -/
def truncLongStringsObj (maxLen : Nat) :
    List (String × JVal) → List (String × JVal)
  | [] => []
  | (k, v) :: vs => (k, truncLongStrings maxLen v) :: truncLongStringsObj maxLen vs

end

/-- The newest-to-oldest accumulation walk of `_truncate_history`, over the
reversed history: number of newest entries kept before the first one that
no longer fits the available budget.  `est` models
`estimate_tokens(json.dumps(·))`. -/
def suffixKeepCount (est : JVal → Nat) (avail : Int) :
    List JVal → Int → Nat
  | [], _ => 0
  | v :: vs, acc =>
    if acc + est v ≤ avail then 1 + suffixKeepCount est avail vs (acc + est v)
    else 0

/-- The shrinking-cap schedule tried on an oversized newest entry. -/
def capSchedule : List Nat := [2000, 1000, 500, 200, 100, 50, 20]

/-- The inner-truncation loop of `_truncate_history` step 2: try each cap
on the newest entry until the result fits; if none fits, clear the
history. -/
def truncLatestLoop (est : JVal → Nat) (avail : Int) (latest : JVal) :
    List Nat → List JVal × Bool
  | [] => ([], true)
  | cap :: caps =>
    let t := truncLongStrings cap latest
    if (est t : Int) ≤ avail then ([t], true)
    else truncLatestLoop est avail latest caps

/-- `BaseLLM._truncate_history(history, max_tokens, reserved_tokens)`:
keep the longest newest-suffix fitting `max_tokens - reserved_tokens`;
when even the newest entry alone does not fit, truncate its internal
strings with shrinking caps; returns the kept entries and the
truncated flag. -/
def truncate_history (est : JVal → Nat) (history : List JVal)
    (maxTokens reservedTokens : Int) : List JVal × Bool :=
  let avail := maxTokens - reservedTokens
  let k := suffixKeepCount est avail history.reverse 0
  if k = 0 then
    match history with
    | [] => ([], false)
    | h :: t => truncLatestLoop est avail (t.getLastD h) capSchedule
  else if k = history.length then (history, false)
  else (history.drop (history.length - k), true)

/-! ### Spec-side definitions and concrete fixtures -/

/-- The catalog the spec describes, stated in its words: the providers'
current tool lists in configured order, every descriptor stamped with the
provider id (providers whose listing fails contribute nothing). -/
def catalogSpec (mcps : List (String × Provider)) : List RDict :=
  mcps.flatMap (fun p =>
    match p.2.listTools with
    | .ok ts => ts.map (fun t => setKey t "mcp_name" p.1)
    | .error _ => [])

/-- The envelope status invariant claimed by the spec. -/
def statusOK (d : RDict) : Prop :=
  lookupKey d "status" = some "success" ∨ lookupKey d "status" = some "error" ∨
    lookupKey d "status" = some "cancelled" ∨ lookupKey d "status" = some "info"

/-- A provider skips its turn in the `execute_tool_call` walk: its listing
raises, a listed tool lacks a name, the tool is not listed, or the call
raises. -/
def providerSkips (p : Provider) (toolName : String) (args : RDict) : Bool :=
  match p.listTools with
  | .error _ => true
  | .ok ts =>
    match toolNames ts with
    | none => true
    | some names =>
      if toolName ∈ names then
        match p.callTool toolName args with
        | .error _ => true
        | .ok _ => false
      else true

/-- A provider exposing the single tool `t`, whose call raises. -/
def provRaisingT : Provider :=
  { available := true, capabilities := [],
    listTools := .ok [[("name", "fetch_url")]],
    callTool := fun _ _ => .error (),
    executeCommand := fun _ => .error "unused" }

/-- A provider exposing the single tool `fetch_url`, whose call returns a
plain success dict. -/
def provServingT : Provider :=
  { available := true, capabilities := [],
    listTools := .ok [[("name", "fetch_url")]],
    callTool := fun _ _ => .ok (.dict [("status", "success")]),
    executeCommand := fun _ => .error "unused" }

/-- Failover fixture: both providers list `fetch_url`; the first raises on
call. -/
def c3Mcps : List (String × Provider) :=
  [("remote1", provRaisingT), ("remote2", provServingT)]

/-- Duplicate-name catalog fixture: two providers both exposing a tool
named `fetch_url`. -/
def c2Mcps : List (String × Provider) :=
  [("A", provServingT), ("B", provServingT)]

/-- A provider whose call returns a dict with no `status` field at all. -/
def provNoStatus : Provider :=
  { available := true, capabilities := [],
    listTools := .ok [[("name", "fetch_url")]],
    callTool := fun _ _ => .ok (.dict [("foo", "1")]),
    executeCommand := fun _ => .error "unused" }

/-- Envelope fixture: a single provider answering without a status field. -/
def c5Mcps : List (String × Provider) := [("A", provNoStatus)]

/-- An available provider exposing nothing, for the selection fixtures. -/
def provPlain : Provider :=
  { available := true, capabilities := [],
    listTools := .ok [],
    callTool := fun _ _ => .error (),
    executeCommand := fun _ => .error "unused" }

/-- Priorities for the selection fixture: `B` far outranks `A`. -/
def c7Prio : String → Int := fun n => if n = "B" then 99 else 1

/-- Selection fixture: `A` registered before the higher-priority `B`,
both available. -/
def c7Mcps : List (String × Provider) := [("A", provPlain), ("B", provPlain)]

/-- The repeated `mouse_click` proposal of the hard-stop scenario. -/
def c1Call : ToolCall :=
  { name := "mouse_click", arguments := [("x", "100"), ("y", "200")] }

/-- Configuration with an LLM, default security settings, and automatic
continuation at the decision gate. -/
def autoCfg : AgentConfig :=
  { hasLLM := true, dangerousTools := ["execute_shell", "start_process"],
    shellConfirm := true, autoContinueDangerous := false,
    autoContinueInteractive := true }

/-- Hard-stop scenario environment: the model proposes the identical
`mouse_click` call on four consecutive planning steps, then stops; every
execution succeeds. -/
def c1Env : Env :=
  { plan := fun n => if n < 4 then [c1Call] else [],
    exec := fun _ => .dict [("status", "success")],
    confirmDanger := fun _ => true,
    gate := fun _ => { clearFirst := false, cmd := .cont },
    interSummary := fun _ => "s",
    finalSummaryText := "done",
    clearAtEnd := false }

/-- The `move_mouse` call of the soft-block scenario. -/
def c4CallS : ToolCall :=
  { name := "move_mouse", arguments := [("x", "10"), ("y", "20")] }

/-- The `key_press` call of the soft-block scenario. -/
def c4CallK : ToolCall :=
  { name := "key_press", arguments := [("key", "A")] }

/-- Soft-block scenario environment: same `move_mouse` call twice, then
`key_press`, then the empty list. -/
def c4Env : Env :=
  { plan := fun n =>
      if n = 0 then [c4CallS]
      else if n = 1 then [c4CallS]
      else if n = 2 then [c4CallK]
      else [],
    exec := fun _ => .dict [("status", "success")],
    confirmDanger := fun _ => true,
    gate := fun _ => { clearFirst := false, cmd := .cont },
    interSummary := fun _ => "s",
    finalSummaryText := "done",
    clearAtEnd := false }

/-- Configuration for the interactive-gate fixture: LLM present, nothing
auto-continues. -/
def gateCfg : AgentConfig :=
  { hasLLM := true, dangerousTools := ["execute_shell", "start_process"],
    shellConfirm := true, autoContinueDangerous := false,
    autoContinueInteractive := false }

/-- Environment in which the user enters `clear` at the first decision
gate and then continues. -/
def c8Env : Env :=
  { plan := fun _ => [c4CallK],
    exec := fun _ => .dict [("status", "success")],
    confirmDanger := fun _ => true,
    gate := fun _ => { clearFirst := true, cmd := .cont },
    interSummary := fun _ => "s",
    finalSummaryText := "done",
    clearAtEnd := false }

/-- The initial loop state for goal `g` over an empty history. -/
def initSt : LoopSt :=
  { command := "g", history := [], step := 0, lastSig := none, repCount := 0,
    planIdx := 0, execIdx := 0, confirmIdx := 0, gateIdx := 0, sumIdx := 0 }

/-- An environment with no interactions at all (for the no-LLM witness). -/
def quietEnv : Env :=
  { plan := fun _ => [], exec := fun _ => .dict [],
    confirmDanger := fun _ => true,
    gate := fun _ => { clearFirst := false, cmd := .cont },
    interSummary := fun _ => "", finalSummaryText := "", clearAtEnd := true }

/-- Configuration without a language model. -/
def noLLMCfg : AgentConfig :=
  { hasLLM := false, dangerousTools := ["execute_shell", "start_process"],
    shellConfirm := true, autoContinueDangerous := false,
    autoContinueInteractive := false }

/-- The loop state after the first execution of the soft-block scenario
(the next proposal repeats the `move_mouse` call just executed). -/
def c4St1 : LoopSt :=
  { command := "goal",
    history := [{ command := c4CallS, result := [("status", "success")],
                  summary := some "s" }],
    step := 1, lastSig := some ("move_mouse", [("x", "10"), ("y", "20")]),
    repCount := 1, planIdx := 1, execIdx := 1, confirmIdx := 0,
    gateIdx := 0, sumIdx := 1 }

/-- The loop state two completed steps into the soft-block scenario. -/
def c8WitSt : LoopSt :=
  { command := "g",
    history := [{ command := c4CallS, result := [("status", "success")],
                  summary := some "s" },
                softBlockEntry "move_mouse"],
    step := 2, lastSig := none, repCount := 2, planIdx := 2, execIdx := 1,
    confirmIdx := 0, gateIdx := 0, sumIdx := 1 }

mutual

/-- A concrete admissible token estimator for the truncation fixtures: a
deterministic, monotone proxy for `estimate_tokens(json.dumps(·))`
(string length plus quoting and separator overhead). -/
def estSize : JVal → Nat
  | .str s => s.length + 2
  | .num _ => 3
  | .arr l => 2 + estSizeList l
  | .obj l => 2 + estSizeObj l

/-- `estSize` over array elements. -/
def estSizeList : List JVal → Nat
  | [] => 0
  | v :: vs => estSize v + 1 + estSizeList vs

/-- `estSize` over dict entries. -/
def estSizeObj : List (String × JVal) → Nat
  | [] => 0
  | (k, v) :: vs => k.length + 3 + estSize v + 1 + estSizeObj vs

end

/-- A 60-character string payload. -/
def longA : String := String.mk (List.replicate 60 'a')

/-- Truncation fixture: a single-entry history whose entry is a dict with
one long string. -/
def c6Hist : List JVal := [JVal.obj [("result", JVal.str longA)]]

/-! ### Theorems -/

set_option maxRecDepth 100000

/-- Setting one key leaves the lookup of any other key unchanged. -/
theorem lookupKey_setKey_ne (d : RDict) (k v k' : String) (h : k' ≠ k) :
    lookupKey (setKey d k v) k' = lookupKey d k' := by
  induction d with
  | nil =>
    have h1 : ¬ (k = k') := fun h' => h h'.symm
    simp [setKey, lookupKey, h1]
  | cons p rest ih =>
    obtain ⟨a, b⟩ := p
    by_cases hak : a = k
    · subst hak
      have h1 : ¬ (a = k') := fun h' => h h'.symm
      simp [setKey, lookupKey, h1]
    · by_cases hk2 : a = k'
      · simp [setKey, lookupKey, hak, hk2, h]
      · simp [setKey, lookupKey, hak, hk2, ih]

theorem get_all_tools_eq_catalogSpec (mcps : List (String × Provider)) :
    get_all_tools mcps = catalogSpec mcps := by
  induction mcps with
  | nil => rfl
  | cons p rest ih =>
    obtain ⟨name, mcp⟩ := p
    unfold get_all_tools catalogSpec
    cases h : mcp.listTools with
    | ok ts => simpa [h, List.flatMap_cons, catalogSpec] using ih
    | error e => simpa [h, List.flatMap_cons, catalogSpec] using ih

theorem catalog_duplicate_names_cex :
    ¬ ((get_all_tools c2Mcps).filterMap (fun t => lookupKey t "name")).Nodup := by
  decide

theorem per_tool_failover_alternate_id
    (n1 n2 : String) (p1 p2 : Provider) (rest : List (String × Provider))
    (toolName : String) (args : RDict) (ts1 ts2 : List RDict)
    (names1 names2 : List String) (d : RDict)
    (h1 : p1.listTools = .ok ts1) (hn1 : toolNames ts1 = some names1)
    (hm1 : toolName ∈ names1)
    (hraise : p1.callTool toolName args = .error ())
    (h2 : p2.listTools = .ok ts2) (hn2 : toolNames ts2 = some names2)
    (hm2 : toolName ∈ names2)
    (hcall : p2.callTool toolName args = .ok (.dict d)) :
    execute_tool_call ((n1, p1) :: (n2, p2) :: rest) toolName args
        = setKey d "mcp_name" n2
      ∧ lookupKey (execute_tool_call ((n1, p1) :: (n2, p2) :: rest) toolName args)
          "fallback" = lookupKey d "fallback" := by
  have he : execute_tool_call ((n1, p1) :: (n2, p2) :: rest) toolName args
      = setKey d "mcp_name" n2 := by
    simp only [execute_tool_call, h1, hn1, hm1, if_true, hraise, h2, hn2, hm2, hcall]
  refine ⟨he, ?_⟩
  rw [he, lookupKey_setKey_ne]
  decide

theorem per_tool_failover_alternate_id_witness :
    execute_tool_call c3Mcps "fetch_url" []
        = setKey [("status", "success")] "mcp_name" "remote2"
      ∧ lookupKey (execute_tool_call c3Mcps "fetch_url" []) "fallback"
          = lookupKey [("status", "success")] "fallback" :=
  per_tool_failover_alternate_id "remote1" "remote2" provRaisingT provServingT []
    "fetch_url" [] [[("name", "fetch_url")]] [[("name", "fetch_url")]]
    ["fetch_url"] ["fetch_url"] [("status", "success")]
    rfl rfl (by decide) rfl rfl rfl (by decide) rfl

theorem per_tool_failover_no_fallback_flag_cex :
    lookupKey (execute_tool_call c3Mcps "fetch_url" []) "fallback" = none
    ∧ lookupKey (execute_tool_call c3Mcps "fetch_url" []) "mcp_name" = some "remote2" := by
  decide

theorem capability_match_empty_required_first_available
    (prio : String → Int) (mcps : List (String × Provider))
    (a : String × Provider) (rest : List (String × Provider))
    (h : get_available_mcps mcps = a :: rest) :
    select_mcp_by_capability prio mcps [] = some a := by
  unfold select_mcp_by_capability
  rw [h]
  simp

theorem capability_match_empty_required_first_available_witness :
    select_mcp_by_capability c7Prio c7Mcps [] = some ("A", provPlain) :=
  capability_match_empty_required_first_available c7Prio c7Mcps
    ("A", provPlain) [("B", provPlain)] rfl

theorem capability_match_empty_required_cex :
    (select_mcp_by_capability c7Prio c7Mcps []).map Prod.fst = some "A"
    ∧ c7Prio "A" < c7Prio "B"
    ∧ (get_available_mcps c7Mcps).map Prod.fst = ["A", "B"] := by
  refine ⟨rfl, by decide, rfl⟩

theorem tool_not_found_envelope (mcps : List (String × Provider))
    (toolName : String) (args : RDict)
    (h : ∀ x ∈ mcps, providerSkips x.2 toolName args = true) :
    execute_tool_call mcps toolName args
      = [("status", "error"), ("error", "Tool " ++ toolName ++ " not found")] := by
  induction mcps with
  | nil => rfl
  | cons p rest ih =>
    obtain ⟨name, mcp⟩ := p
    have hp := h _ (List.mem_cons_self _ _)
    have hr := ih (fun x hx => h x (List.mem_cons_of_mem _ hx))
    unfold providerSkips at hp
    dsimp only at hp
    cases hl : mcp.listTools with
    | error e => simp only [execute_tool_call, hl]; exact hr
    | ok ts =>
      cases hn : toolNames ts with
      | none => simp only [execute_tool_call, hl, hn]; exact hr
      | some names =>
        by_cases hmem : toolName ∈ names
        · cases hc : mcp.callTool toolName args with
          | error u =>
            simp only [execute_tool_call, hl, hn, hmem, if_true, hc]
            exact hr
          | ok r =>
            exfalso
            simp only [hl, hn, hmem, if_true, hc] at hp
            simp at hp
        · simp only [execute_tool_call, hl, hn, hmem, if_false]
          exact hr

theorem tool_not_found_envelope_witness :
    execute_tool_call c5Mcps "zzz" []
      = [("status", "error"), ("error", "Tool " ++ "zzz" ++ " not found")] :=
  tool_not_found_envelope c5Mcps "zzz" [] (by decide)

theorem no_llm_returns_input_history (cfg : AgentConfig) (env : Env)
    (command : String) (history : List HistEntry) (maxSteps : Nat)
    (autoContinue : Bool) (hllm : cfg.hasLLM = false) (hms : 1 ≤ maxSteps) :
    execute_interactive cfg env command history maxSteps autoContinue
      = { status := "success", results := history, finalSummary := none } := by
  obtain ⟨n, rfl⟩ : ∃ n, maxSteps = n + 1 := ⟨maxSteps - 1, by omega⟩
  unfold execute_interactive runLoopAux stepIter
  simp [hllm]

theorem no_llm_returns_input_history_witness :
    execute_interactive noLLMCfg quietEnv "g" [] 5 false
      = { status := "success", results := [], finalSummary := none } :=
  no_llm_returns_input_history noLLMCfg quietEnv "g" [] 5 false rfl (by decide)

/-- Available providers are registered providers. -/
theorem mem_of_mem_get_available {mcps : List (String × Provider)}
    {x : String × Provider} (h : x ∈ get_available_mcps mcps) : x ∈ mcps :=
  List.mem_of_mem_filter h

/-- Members of an insertion are the inserted element or old members. -/
theorem mem_of_mem_insertByPrioDesc {prio : String → Int} {x y : String × Provider}
    {l : List (String × Provider)} (h : y ∈ insertByPrioDesc prio x l) :
    y = x ∨ y ∈ l := by
  induction l with
  | nil => simpa [insertByPrioDesc] using h
  | cons z zs ih =>
    unfold insertByPrioDesc at h
    by_cases hc : prio x.1 > prio z.1
    · simp only [hc, if_true, List.mem_cons] at h
      rcases h with h | h | h
      · exact Or.inl h
      · exact Or.inr (by simp [h])
      · exact Or.inr (by simp [h])
    · simp only [hc, if_false, List.mem_cons] at h
      rcases h with h | h
      · exact Or.inr (by simp [h])
      · rcases ih h with h' | h'
        · exact Or.inl h'
        · exact Or.inr (List.mem_cons_of_mem _ h')

/-- The stable descending sort only permutes: members come from the input. -/
theorem mem_of_mem_sortByPrioDesc {prio : String → Int}
    {l : List (String × Provider)} {y : String × Provider}
    (h : y ∈ sortByPrioDesc prio l) : y ∈ l := by
  suffices H : ∀ (l acc : List (String × Provider)),
      y ∈ l.foldl (fun acc x => insertByPrioDesc prio x acc) acc → y ∈ acc ∨ y ∈ l by
    rcases H l [] h with h' | h'
    · simp at h'
    · exact h'
  intro l
  induction l with
  | nil => intro acc h'; exact Or.inl h'
  | cons z zs ih =>
    intro acc h'
    rcases ih _ h' with h'' | h''
    · rcases mem_of_mem_insertByPrioDesc h'' with rfl | h3
      · exact Or.inr (List.mem_cons_self _ _)
      · exact Or.inl h3
    · exact Or.inr (List.mem_cons_of_mem _ h'')

/-- The best-match loop returns the running best or a list member. -/
theorem bestMatchLoop_mem {required : List String} :
    ∀ {l : List (String × Provider)} {best : Option (String × Provider)}
      {c : Int} {x : String × Provider},
      bestMatchLoop required l best c = some x → best = some x ∨ x ∈ l := by
  intro l
  induction l with
  | nil => intro best c x h; exact Or.inl h
  | cons z zs ih =>
    intro best c x h
    unfold bestMatchLoop at h
    split at h
    · rcases ih h with h' | h'
      · injection h' with h''
        exact Or.inr (h'' ▸ List.mem_cons_self _ _)
      · exact Or.inr (List.mem_cons_of_mem _ h')
    · rcases ih h with h' | h'
      · exact Or.inl h'
      · exact Or.inr (List.mem_cons_of_mem _ h')

/-- Capability-based selection returns a registered provider. -/
theorem select_mcp_by_capability_mem {prio : String → Int}
    {mcps : List (String × Provider)} {required : List String}
    {x : String × Provider}
    (h : select_mcp_by_capability prio mcps required = some x) : x ∈ mcps := by
  unfold select_mcp_by_capability at h
  cases hav : get_available_mcps mcps with
  | nil => rw [hav] at h; cases h
  | cons a restl =>
    rw [hav] at h
    by_cases hreq : required = []
    · simp only [hreq, if_true] at h
      injection h with h'
      exact mem_of_mem_get_available (hav ▸ (h' ▸ List.mem_cons_self a restl))
    · simp only [hreq, if_false] at h
      cases hf : (sortByPrioDesc prio (a :: restl)).find?
          (fun nm => required.all (fun c => c ∈ nm.2.capabilities)) with
      | some y =>
        rw [hf] at h
        injection h with h'
        subst h'
        exact mem_of_mem_get_available
          (hav ▸ mem_of_mem_sortByPrioDesc (List.mem_of_find?_eq_some hf))
      | none =>
        rw [hf] at h
        rcases bestMatchLoop_mem h with h' | h'
        · cases h'
        · exact mem_of_mem_get_available (hav ▸ mem_of_mem_sortByPrioDesc h')

/-- Priority-based selection returns a registered provider. -/
theorem select_mcp_by_priority_mem {prio : String → Int}
    {mcps : List (String × Provider)} {x : String × Provider}
    (h : select_mcp_by_priority prio mcps = some x) : x ∈ mcps := by
  unfold select_mcp_by_priority at h
  cases hs : sortByPrioDesc prio (get_available_mcps mcps) with
  | nil => rw [hs] at h; cases h
  | cons a restl =>
    rw [hs] at h
    injection h with h'
    subst h'
    exact mem_of_mem_get_available
      (mem_of_mem_sortByPrioDesc (hs ▸ List.mem_cons_self a restl))

/-- An element fetched with a member default is a member. -/
theorem getD_mem {α : Type} {l : List α} {n : Nat} {d : α} (hd : d ∈ l) :
    l.getD n d ∈ l := by
  rw [List.getD_eq_getElem?_getD]
  cases hg : l[n]? with
  | none => simpa using hd
  | some y => simpa using List.getElem?_mem hg

/-- Load-balance selection returns a registered provider. -/
theorem select_mcp_by_load_balance_mem {pick : Nat}
    {mcps : List (String × Provider)} {x : String × Provider}
    (h : select_mcp_by_load_balance pick mcps = some x) : x ∈ mcps := by
  unfold select_mcp_by_load_balance at h
  cases hav : get_available_mcps mcps with
  | nil => rw [hav] at h; cases h
  | cons a restl =>
    rw [hav] at h
    injection h with h'
    subst h'
    have hm : (a :: restl).getD (pick % (restl.length + 1)) a ∈ a :: restl :=
      getD_mem (List.mem_cons_self a restl)
    have hm2 : (a :: restl).getD (pick % (restl.length + 1)) a
        ∈ get_available_mcps mcps := by rw [hav]; exact hm
    exact mem_of_mem_get_available hm2

/-- Strategy dispatch returns a registered provider. -/
theorem select_mcp_mem {strategy : String} {prio : String → Int} {pick : Nat}
    {mcps : List (String × Provider)} {required : List String}
    {x : String × Provider}
    (h : select_mcp strategy prio pick mcps required = some x) : x ∈ mcps := by
  unfold select_mcp at h
  split at h
  · exact select_mcp_by_capability_mem h
  · split at h
    · exact select_mcp_by_priority_mem h
    · split at h
      · exact select_mcp_by_load_balance_mem h
      · exact select_mcp_by_capability_mem h

/-- Stamping the provider id does not change the status field. -/
theorem statusOK_setKey_mcp_name {d : RDict} {n : String} (h : statusOK d) :
    statusOK (setKey d "mcp_name" n) := by
  unfold statusOK at h ⊢
  rw [lookupKey_setKey_ne d "mcp_name" n "status" (by decide)]
  exact h

/-- Stamping the fallback marker does not change the status field. -/
theorem statusOK_setKey_fallback {d : RDict} {v : String} (h : statusOK d) :
    statusOK (setKey d "fallback" v) := by
  unfold statusOK at h ⊢
  rw [lookupKey_setKey_ne d "fallback" v "status" (by decide)]
  exact h

/-- The fallback loop preserves the status invariant when every fallback
provider's successful command results satisfy it. -/
theorem statusOK_tryFallback (command origErr origName : String)
    (l : List (String × Provider))
    (h : ∀ x ∈ l, ∀ r, x.2.executeCommand command = .ok r → statusOK r) :
    statusOK (tryFallback command origErr origName l) := by
  induction l with
  | nil => simp [tryFallback, statusOK, lookupKey]
  | cons p rest ih =>
    have hr := ih (fun x hx => h x (List.mem_cons_of_mem _ hx))
    cases he : p.2.executeCommand command with
    | ok r =>
      have hsr := h p (List.mem_cons_self _ _) r he
      simp only [tryFallback, he]
      exact statusOK_setKey_fallback (statusOK_setKey_mcp_name hsr)
    | error e =>
      simp only [tryFallback, he]
      exact hr

/-- Per-tool dispatch preserves the status invariant whenever every
provider dict result already satisfies it. -/
theorem statusOK_execute_tool_call (mcps : List (String × Provider))
    (toolName : String) (args : RDict)
    (hdict : ∀ x ∈ mcps, ∀ t a d, x.2.callTool t a = .ok (.dict d) → statusOK d) :
    statusOK (execute_tool_call mcps toolName args) := by
  induction mcps with
  | nil => simp [execute_tool_call, statusOK, lookupKey]
  | cons p rest ih =>
    obtain ⟨name, mcp⟩ := p
    have hr := ih (fun x hx => hdict x (List.mem_cons_of_mem _ hx))
    cases hl : mcp.listTools with
    | error e => simp only [execute_tool_call, hl]; exact hr
    | ok ts =>
      cases hn : toolNames ts with
      | none => simp only [execute_tool_call, hl, hn]; exact hr
      | some names =>
        by_cases hmem : toolName ∈ names
        · cases hc : mcp.callTool toolName args with
          | error u =>
            simp only [execute_tool_call, hl, hn, hmem, if_true, hc]; exact hr
          | ok r =>
            cases r with
            | dict d =>
              simp only [execute_tool_call, hl, hn, hmem, if_true, hc]
              exact statusOK_setKey_mcp_name
                (hdict _ (List.mem_cons_self _ _) _ _ _ hc)
            | ctr c =>
              simp only [execute_tool_call, hl, hn, hmem, if_true, hc]
              unfold normalizeCtr
              by_cases hie : c.isError = false
              · simp [hie, statusOK, lookupKey]
              · simp [hie, statusOK, lookupKey]
        · simp only [execute_tool_call, hl, hn, hmem, if_false]; exact hr

/-- Capability-level dispatch preserves the status invariant whenever every
provider command result already satisfies it. -/
theorem statusOK_execute_command (mcps : List (String × Provider))
    (strategy : String) (prio : String → Int) (pick : Nat)
    (shellConfirm confirmAnswer : Bool) (command : String)
    (required : List String)
    (hcmd : ∀ x ∈ mcps, ∀ r, x.2.executeCommand command = .ok r → statusOK r) :
    statusOK (execute_command mcps strategy prio pick shellConfirm confirmAnswer
      command required) := by
  unfold execute_command
  split
  · simp [statusOK, lookupKey]
  · cases hsel : select_mcp strategy prio pick mcps required with
    | none => simp [statusOK, lookupKey]
    | some nm =>
      obtain ⟨name, mcp⟩ := nm
      have hmem := select_mcp_mem hsel
      simp only [hsel]
      cases hec : mcp.executeCommand command with
      | ok r =>
        simp only [hec]
        exact statusOK_setKey_mcp_name (hcmd _ hmem _ hec)
      | error e =>
        simp only [hec]
        cases hf : (get_available_mcps mcps).filter (fun nm => nm.1 ≠ name) with
        | nil => simp [statusOK, lookupKey]
        | cons o os =>
          refine statusOK_tryFallback _ _ _ _ (fun x hx r hr => ?_)
          have hx2 : x ∈ (get_available_mcps mcps).filter (fun nm => nm.1 ≠ name) := by
            rw [hf]; exact hx
          exact hcmd x (mem_of_mem_get_available (List.mem_of_mem_filter hx2)) r hr

/-- C5 theorem: under the assumption that provider-returned dicts already
carry a conforming status, every envelope either dispatch operation
returns carries a status among success, error, cancelled, info. -/
theorem dispatch_status_ok_of_provider_ok (mcps : List (String × Provider))
    (toolName command strategy : String) (args : RDict) (prio : String → Int)
    (pick : Nat) (shellConfirm confirmAnswer : Bool) (required : List String)
    (hdict : ∀ x ∈ mcps, ∀ t a d, x.2.callTool t a = .ok (.dict d) → statusOK d)
    (hcmd : ∀ x ∈ mcps, ∀ r, x.2.executeCommand command = .ok r → statusOK r) :
    statusOK (execute_tool_call mcps toolName args)
    ∧ statusOK (execute_command mcps strategy prio pick shellConfirm
        confirmAnswer command required) :=
  ⟨statusOK_execute_tool_call mcps toolName args hdict,
   statusOK_execute_command mcps strategy prio pick shellConfirm confirmAnswer
     command required hcmd⟩

/-- C5 witness: the failover fixture, whose providers only ever answer
with a conforming dict. -/
theorem dispatch_status_ok_of_provider_ok_witness :
    statusOK (execute_tool_call c3Mcps "fetch_url" [])
    ∧ statusOK (execute_command c3Mcps "capability_match" c7Prio 0 true true
        "cmd" []) :=
  dispatch_status_ok_of_provider_ok c3Mcps "fetch_url" "cmd" "capability_match"
    [] c7Prio 0 true true []
    (by
      intro x hx t a d hc
      simp only [c3Mcps, List.mem_cons, List.not_mem_nil, or_false] at hx
      rcases hx with rfl | rfl
      · simp [provRaisingT] at hc
      · simp only [provServingT] at hc
        injection hc with h1
        injection h1 with h2
        subst h2
        unfold statusOK lookupKey
        simp)
    (by
      intro x hx r hr
      simp only [c3Mcps, List.mem_cons, List.not_mem_nil, or_false] at hx
      rcases hx with rfl | rfl
      · simp [provRaisingT] at hr
      · simp [provServingT] at hr)

/-- C5 counterexample: a provider dict without a status field is passed
through with only the provider id added, so the returned envelope has no
status at all. -/
theorem dispatch_status_passthrough_cex :
    lookupKey (execute_tool_call c5Mcps "fetch_url" []) "status" = none
    ∧ ¬ statusOK (execute_tool_call c5Mcps "fetch_url" []) := by
  constructor
  · decide
  · unfold statusOK
    decide

/-- C1 theorem: on the literal hard-stop input (the identical call proposed
four consecutive times, ample `max_steps`) the loop finishes with
`status = success` and four history entries — the hard-stop branch never
fires, because the soft block clears the remembered signature and the
repetition counter can never exceed two. -/
theorem hard_stop_unreachable_scenario :
    (execute_interactive autoCfg c1Env "click" [] 10 true).status = "success"
    ∧ (execute_interactive autoCfg c1Env "click" [] 10 true).results.length = 4 := by
  decide

/-- C4 theorem: a proposal repeating the remembered signature is never
executed — the step appends exactly the rejection SystemNotice, clears the
signature and advances the counter — and on the literal scenario
(`move_mouse`, `move_mouse`, `key_press`, `[]`) the final history has
exactly 3 entries. -/
theorem soft_block_rejects_and_scenario (cfg : AgentConfig) (env : Env)
    (autoContinue : Bool) (st : LoopSt) (call : ToolCall)
    (others : List ToolCall) (hllm : cfg.hasLLM = true)
    (hplan : env.plan st.planIdx = call :: others)
    (hsig : st.lastSig = some (callSignature call))
    (hrep1 : 1 ≤ st.repCount) (hrep2 : st.repCount ≤ 2) :
    stepIter cfg env autoContinue st = .inl
      { command := st.command,
        history := st.history ++ [softBlockEntry call.name],
        step := st.step + 1, lastSig := none, repCount := st.repCount + 1,
        planIdx := st.planIdx + 1, execIdx := st.execIdx,
        confirmIdx := st.confirmIdx, gateIdx := st.gateIdx, sumIdx := st.sumIdx }
    ∧ (execute_interactive autoCfg c4Env "goal" [] 10 true).results.length = 3 := by
  constructor
  · unfold stepIter
    simp only [hllm, if_true, hplan, hsig]
    have h4 : ¬ (st.repCount + 1 ≥ 4) := by omega
    have h2 : st.repCount + 1 ≥ 2 := by omega
    simp [h4, h2]
  · decide

/-- C4 witness: the soft-block scenario state after its first execution. -/
theorem soft_block_rejects_and_scenario_witness :
    stepIter autoCfg c4Env true c4St1 = .inl
      { command := c4St1.command,
        history := c4St1.history ++ [softBlockEntry c4CallS.name],
        step := c4St1.step + 1, lastSig := none, repCount := c4St1.repCount + 1,
        planIdx := c4St1.planIdx + 1, execIdx := c4St1.execIdx,
        confirmIdx := c4St1.confirmIdx, gateIdx := c4St1.gateIdx,
        sumIdx := c4St1.sumIdx }
    ∧ (execute_interactive autoCfg c4Env "goal" [] 10 true).results.length = 3 :=
  soft_block_rejects_and_scenario autoCfg c4Env true c4St1 c4CallS [] rfl rfl
    rfl (by decide) (by decide)

/-- One execution phase that stays in the loop appends exactly one entry
and advances the step counter by one, provided the user never clears. -/
theorem execStep_inl_no_clear {cfg : AgentConfig} {env : Env}
    {autoContinue : Bool} {st : LoopSt} {call : ToolCall}
    {curSig : String × RDict} {repCount pI cI : Nat} {st' : LoopSt}
    (hgate : ∀ n, (env.gate n).clearFirst = false)
    (h : execStep cfg env autoContinue st call curSig repCount pI cI = .inl st') :
    st'.history.length = st.history.length + 1 ∧ st'.step = st.step + 1 := by
  simp only [execStep, hgate, Bool.false_eq_true, if_false] at h
  repeat' split at h
  all_goals try cases h
  all_goals simp

/-- Any loop-body iteration that stays in the loop appends exactly one
history entry and advances the step counter by one, provided the user
never clears. -/
theorem stepIter_inl_no_clear {cfg : AgentConfig} {env : Env}
    {autoContinue : Bool} {st st' : LoopSt}
    (hgate : ∀ n, (env.gate n).clearFirst = false)
    (h : stepIter cfg env autoContinue st = .inl st') :
    st'.history.length = st.history.length + 1 ∧ st'.step = st.step + 1 := by
  simp only [stepIter] at h
  repeat' split at h
  all_goals try exact execStep_inl_no_clear hgate h
  all_goals try cases h
  all_goals simp

/-- C8 theorem: provided the user never issues the clear command, after
`k` completed loop iterations the history has grown by exactly `k`
entries (and the step counter by `k`). -/
theorem append_only_no_clear (cfg : AgentConfig) (env : Env)
    (autoContinue : Bool) (k : Nat) (st st' : LoopSt)
    (hgate : ∀ n, (env.gate n).clearFirst = false)
    (h : iterateLoop cfg env autoContinue k st = .inl st') :
    st'.history.length = st.history.length + k ∧ st'.step = st.step + k := by
  induction k generalizing st with
  | zero =>
    unfold iterateLoop at h
    injection h with h'
    subst h'
    simp
  | succ n ih =>
    unfold iterateLoop at h
    cases hs : stepIter cfg env autoContinue st with
    | inr r => rw [hs] at h; cases h
    | inl st1 =>
      rw [hs] at h
      obtain ⟨h1, h2⟩ := stepIter_inl_no_clear hgate hs
      obtain ⟨h3, h4⟩ := ih st1 h
      constructor <;> omega

/-- C8 witness: two completed steps of the soft-block scenario append
exactly two entries. -/
theorem append_only_no_clear_witness :
    c8WitSt.history.length = initSt.history.length + 2
    ∧ c8WitSt.step = initSt.step + 2 :=
  append_only_no_clear autoCfg c4Env true 2 initSt c8WitSt
    (fun _ => rfl) (by decide)

/-- C8 counterexample: with the user entering `clear` at the first
decision gate, step 1 completes with an empty history, not one entry more
than before the invocation. -/
theorem append_only_clear_cex :
    stepIter gateCfg c8Env false initSt = .inl
      { command := "g", history := [], step := 1,
        lastSig := some ("key_press", [("key", "A")]), repCount := 1,
        planIdx := 1, execIdx := 1, confirmIdx := 0, gateIdx := 1, sumIdx := 1 }
    ∧ ([] : List HistEntry).length ≠ initSt.history.length + 1 := by
  constructor
  · decide
  · decide

/-- The keep count never exceeds the list length. -/
theorem suffixKeepCount_le_length (est : JVal → Nat) (avail : Int) :
    ∀ (l : List JVal) (acc : Int), suffixKeepCount est avail l acc ≤ l.length := by
  intro l
  induction l with
  | nil => intro acc; simp [suffixKeepCount]
  | cons v vs ih =>
    intro acc
    unfold suffixKeepCount
    split
    · have := ih (acc + est v)
      simp only [List.length_cons]
      omega
    · simp

/-- The keep count is monotone in the available budget. -/
theorem suffixKeepCount_mono (est : JVal → Nat) {a1 a2 : Int} (h : a1 ≤ a2) :
    ∀ (l : List JVal) (acc : Int),
      suffixKeepCount est a1 l acc ≤ suffixKeepCount est a2 l acc := by
  intro l
  induction l with
  | nil => intro acc; simp [suffixKeepCount]
  | cons v vs ih =>
    intro acc
    unfold suffixKeepCount
    by_cases h1 : acc + est v ≤ a1
    · have h2 : acc + est v ≤ a2 := le_trans h1 h
      rw [if_pos h1, if_pos h2]
      have := ih (acc + est v)
      omega
    · rw [if_neg h1]
      exact Nat.zero_le _

/-- Greedy accumulation is maximal: a prefix of the reversed history whose
accumulated estimate fits the budget is no longer than the kept count. -/
theorem le_suffixKeepCount (est : JVal → Nat) (avail : Int) :
    ∀ (l : List JVal) (acc : Int) (j : Nat), j ≤ l.length →
      acc + ((l.take j).map (fun v => (est v : Int))).sum ≤ avail →
      j ≤ suffixKeepCount est avail l acc := by
  intro l
  induction l with
  | nil =>
    intro acc j hj _
    have hj0 : j = 0 := by simpa using hj
    subst hj0
    exact Nat.zero_le _
  | cons v vs ih =>
    intro acc j hj hsum
    cases j with
    | zero => exact Nat.zero_le _
    | succ i =>
      have hnn : (0 : Int) ≤ ((vs.take i).map (fun v => (est v : Int))).sum := by
        apply List.sum_nonneg
        intro x hx
        simp only [List.mem_map] at hx
        obtain ⟨y, _, rfl⟩ := hx
        exact Int.natCast_nonneg _
      rw [List.take_succ_cons, List.map_cons, List.sum_cons] at hsum
      have hfit : acc + est v ≤ avail := by omega
      unfold suffixKeepCount
      rw [if_pos hfit]
      have hrec : i ≤ suffixKeepCount est avail vs (acc + est v) := by
        apply ih
        · simpa using hj
        · omega
      omega

/-- Dropping more is a suffix of dropping less. -/
theorem drop_suffix_drop {α : Type} (l : List α) {m n : Nat} (h : m ≤ n) :
    l.drop n <:+ l.drop m := by
  have he : l.drop n = (l.drop m).drop (n - m) := by
    rw [List.drop_drop]
    congr 1
    omega
  rw [he]
  exact List.drop_suffix _ _

/-- C6 theorem: when the newest entry alone fits the smaller budget, the
retained entry list under the smaller budget is a suffix of the one under
the larger budget, and the kept count is the longest newest-suffix whose
accumulated estimate fits. -/
theorem truncation_suffix_monotone (est : JVal → Nat) (history : List JVal)
    (m1 r1 m2 r2 : Int) (hA : m1 - r1 ≤ m2 - r2)
    (e : JVal) (restr : List JVal) (hrev : history.reverse = e :: restr)
    (hfit : (est e : Int) ≤ m1 - r1) :
    (truncate_history est history m1 r1).1 <:+ (truncate_history est history m2 r2).1
    ∧ (∀ j ≤ history.length,
        ((history.reverse.take j).map (fun v => (est v : Int))).sum ≤ m1 - r1 →
        j ≤ suffixKeepCount est (m1 - r1) history.reverse 0) := by
  have hk1pos : 1 ≤ suffixKeepCount est (m1 - r1) history.reverse 0 := by
    rw [hrev]
    unfold suffixKeepCount
    rw [if_pos (by simpa using hfit)]
    omega
  have hmono := suffixKeepCount_mono est hA history.reverse 0
  have hlen1 : suffixKeepCount est (m1 - r1) history.reverse 0 ≤ history.length := by
    have := suffixKeepCount_le_length est (m1 - r1) history.reverse 0
    simpa using this
  have hlen2 : suffixKeepCount est (m2 - r2) history.reverse 0 ≤ history.length := by
    have := suffixKeepCount_le_length est (m2 - r2) history.reverse 0
    simpa using this
  constructor
  · simp only [truncate_history]
    rw [if_neg (by omega : ¬ suffixKeepCount est (m1 - r1) history.reverse 0 = 0)]
    rw [if_neg (by omega : ¬ suffixKeepCount est (m2 - r2) history.reverse 0 = 0)]
    by_cases h1len : suffixKeepCount est (m1 - r1) history.reverse 0 = history.length
    · have h2len : suffixKeepCount est (m2 - r2) history.reverse 0 = history.length := by
        omega
      rw [if_pos h1len, if_pos h2len]
    · rw [if_neg h1len]
      by_cases h2len : suffixKeepCount est (m2 - r2) history.reverse 0 = history.length
      · rw [if_pos h2len]
        exact List.drop_suffix _ _
      · rw [if_neg h2len]
        exact drop_suffix_drop history (by omega)
  · intro j hj hsum
    apply le_suffixKeepCount est (m1 - r1) history.reverse 0 j
    · simpa using hj
    · simpa using hsum

/-- C6 witness: a two-budget instance where the newest (only) entry fits
both budgets. -/
theorem truncation_suffix_monotone_witness :
    (truncate_history estSize [JVal.str "ab"] 1010 1000).1 <:+
      (truncate_history estSize [JVal.str "ab"] 1020 1000).1
    ∧ (∀ j ≤ ([JVal.str "ab"] : List JVal).length,
        ((([JVal.str "ab"] : List JVal).reverse.take j).map
            (fun v => (estSize v : Int))).sum ≤ 1010 - 1000 →
        j ≤ suffixKeepCount estSize (1010 - 1000)
            ([JVal.str "ab"] : List JVal).reverse 0) :=
  truncation_suffix_monotone estSize [JVal.str "ab"] 1010 1000 1020 1000
    (by decide) (JVal.str "ab") [] rfl (by decide)

/-- C6 counterexample: under the small budget the single oversized entry
is replaced by an internally string-truncated copy, which is not a suffix
of the untruncated list the larger budget retains. -/
theorem truncation_monotonicity_cex :
    ¬ ((truncate_history estSize c6Hist 1060 1000).1 <:+
        (truncate_history estSize c6Hist 2000 1000).1) := by
  intro hsuf
  have e1 : (truncate_history estSize c6Hist 1060 1000).1
      = [JVal.obj [("result", JVal.str (longA.take 20 ++ truncNotice))]] := by rfl
  have e2 : (truncate_history estSize c6Hist 2000 1000).1 = c6Hist := by rfl
  rw [e1, e2] at hsuf
  obtain ⟨t, ht⟩ := hsuf
  cases t with
  | nil =>
    simp only [List.nil_append, c6Hist, List.cons.injEq, and_true] at ht
    injection ht with h1
    injection h1 with h2 h3
    injection h2 with h4 h5
    injection h5 with h6
    exact absurd h6 (by decide)
  | cons x xs =>
    have hl := congrArg List.length ht
    simp [c6Hist] at hl

end LXAgent
